import Mathlib

/-!
Verification development for the habit-tracker core
(`assets/js/app.js` and `assets/js/ui-components.js`).

Modelling conventions for the shallow embedding:

* Calendar dates. The source passes dates around as canonical `YYYY-MM-DD`
  strings. We represent such a string by its three numeric fields
  (`CDate`), with lexicographic comparison `dateLt` standing in for the
  string comparison `d < habit.createdAt` (the two orders agree on
  canonical zero-padded four-digit-year strings).

* The JavaScript timezone. `app.js` fixes
  `tz = Intl.DateTimeFormat().resolvedOptions().timeZone || "Europe/Zurich"`
  and formats every date through that zone, while anchoring day arithmetic
  at UTC midnight. We model the zone as a fixed offset of `off` seconds
  east of UTC, threaded explicitly through every function that the source
  routes through `isoDate`.

* Integer division. Lean's `/` and `%` on `Int` are Euclidean; for the
  positive divisors used here Euclidean division coincides with floor
  division, which is exactly the semantics of JavaScript `Math.floor(a/b)`
  and of the epoch-day arithmetic inside `Date.UTC` / `getUTCDate`.

* Epoch-day conversions. `daysFromCivil`/`civilFromDays` model the
  proleptic-Gregorian conversion performed by the JavaScript `Date`
  object (days measured from 1970-01-01); the formulas are the standard
  civil-calendar conversion routines, which agree with the ECMAScript
  normalization on all month values `0..13` produced by the source
  (`m - 1` of a parsed month and the `m + 1` used by `monthRange`).

* Loops. The `while (true)` loops of the source (`calcStreak`,
  `monthRange`) are embedded with explicit fuel where the source relies on
  data-dependent breaks for termination; a fuel-exhausted run is `none`.
-/

namespace Tracker

/-- A calendar date `YYYY-MM-DD`, numeric fields of the canonical string. -/
structure CDate where
  y : Int
  m : Int
  d : Int
deriving DecidableEq, Repr

/-- Lexicographic comparison of dates; on canonical `YYYY-MM-DD` strings it
agrees with the JavaScript string comparison used by `calcStreak`. -/
def dateLt (a b : CDate) : Bool :=
  decide (a.y < b.y) ||
    (decide (a.y = b.y) &&
      (decide (a.m < b.m) || (decide (a.m = b.m) && decide (a.d < b.d))))

/-- Days since 1970-01-01 of a civil date: the epoch-day arithmetic that
`Date.UTC(y, m-1, d)` performs (divided by 86400000 ms). -/
def daysFromCivil (dt : CDate) : Int :=
  let yy := if dt.m ≤ 2 then dt.y - 1 else dt.y
  let era := yy / 400
  let yoe := yy - era * 400
  let mp := (dt.m + 9) % 12
  let doy := (153 * mp + 2) / 5 + dt.d - 1
  let doe := yoe * 365 + yoe / 4 - yoe / 100 + doy
  era * 146097 + doe - 719468

/-- Civil date of a count of days since 1970-01-01: the inverse conversion
a `Date` performs when its year/month/day fields are read back. -/
def civilFromDays (z : Int) : CDate :=
  let z2 := z + 719468
  let era := z2 / 146097
  let doe := z2 - era * 146097
  let yoe := (doe - doe / 1460 + doe / 36524 - doe / 146096) / 365
  let yr := yoe + era * 400
  let doy := doe - (365 * yoe + yoe / 4 - yoe / 100)
  let mp := (5 * doy + 2) / 153
  let dd := doy - (153 * mp + 2) / 5 + 1
  let mo := if mp < 10 then mp + 3 else mp - 9
  ⟨if mo ≤ 2 then yr + 1 else yr, mo, dd⟩

/-- Model of `isoDate(d)` from `app.js` applied to an instant of `ms`
milliseconds since the epoch: the `Intl.DateTimeFormat` calls format the
instant in the fixed zone, i.e. they read off the civil date of the
zone-shifted instant (`off` is the zone's offset in seconds east of UTC). -/
def isoDateMs (off : Int) (ms : Int) : CDate :=
  civilFromDays ((ms + off * 1000) / 86400000)

/-- Model of `addDays(dateStr, delta)` from `app.js`: anchor the parsed
date at UTC midnight (`Date.UTC(y, m - 1, d)`), shift by `delta` whole days
(`setUTCDate(getUTCDate() + delta)`), then format the shifted instant back
through `isoDate`, i.e. through the fixed zone. -/
def addDays (off : Int) (date : CDate) (delta : Int) : CDate :=
  isoDateMs off ((daysFromCivil date + delta) * 86400000)

/-- The calendar date one day before `d`, via the epoch-day bijection:
used below as the reference day-stepping of the specification walk. -/
def prevDate (d : CDate) : CDate :=
  civilFromDays (daysFromCivil d - 1)

/-- Habit record, the persisted shape from `app.js` (`loadStore` seeds) and
`ui-components.js` (`startCreate`). A habit object with no `archived` field
reads it as a falsy `undefined`, modelled as `false`. -/
structure Habit where
  id : String
  name : String
  color : String
  icon : String
  repeatDays : List Int
  createdAt : CDate
  order : Int
  archived : Bool
deriving DecidableEq, Repr

/-- The persisted store: habit collection plus completion ledger. The
ledger object `completions` maps date strings to arrays of habit ids; it is
modelled as an association list with the object's lookup/update semantics
(first binding wins, update replaces in place or appends). -/
structure Store where
  habits : List Habit
  completions : List (CDate × List String)
deriving DecidableEq, Repr

/-- Lookup `store.completions[date]` — `none` models `undefined`. A JS
object has at most one binding per key; on the association list the first
binding wins. -/
def lookupCompletions : List (CDate × List String) → CDate →
    Option (List String)
  | [], _ => none
  | p :: ps, d => if p.1 == d then some p.2 else lookupCompletions ps d

/-- Model of `hasCompleted(store, date, habitId)` from `app.js`:
`!!store.completions[date]?.includes(habitId)`. -/
def hasCompleted (store : Store) (d : CDate) (habitId : String) : Bool :=
  match lookupCompletions store.completions d with
  | some l => l.contains habitId
  | none => false

/-- Model of `isScheduled(h, date)` from `app.js`: the weekday of the date
(`new Date(date + "T00:00:00").getDay()`, local parse and local read-back
cancel the zone offset, leaving the civil weekday; epoch day 0 was a
Thursday, hence `+ 4`) must be in `repeatDays`, and the habit must not be
archived. -/
def isScheduled (h : Habit) (d : CDate) : Bool :=
  let dow := (daysFromCivil d + 4) % 7
  h.repeatDays.contains dow && !h.archived

/-- Fuel-indexed body of the `while (true)` loop of `calcStreak` from
`app.js`. The source increments on a scheduled-and-done day and breaks on a
scheduled-but-not-done day (two mutually exclusive branches, rendered here
break-test first); then breaks if the day was before `createdAt`; then
steps one day back via `addDays(d, -1)`, breaking if the step did not move
(`prev === d`) or once the count passes the 3650 safety bound. `none` means
the loop was still running when the fuel ran out. -/
def calcStreakLoop (off : Int) (store : Store) (habit : Habit) :
    Nat → CDate → Nat → Option Nat
  | 0, _, _ => none
  | fuel + 1, d, streak =>
    let scheduled := isScheduled habit d
    let done := hasCompleted store d habit.id
    if scheduled && !done then some streak
    else
      let streak' := if scheduled && done then streak + 1 else streak
      if dateLt d habit.createdAt then some streak'
      else
        let prev := addDays off d (-1)
        if prev = d then some streak'
        else if streak' > 3650 then some streak'
        else calcStreakLoop off store habit fuel prev streak'

/-- Model of `calcStreak(store, habit, fromDate)` from `app.js`, starting
the loop at `fromDate` with count 0. -/
def calcStreak (off : Int) (store : Store) (habit : Habit) (fromDate : CDate)
    (fuel : Nat) : Option Nat :=
  calcStreakLoop off store habit fuel fromDate 0

/-- Modelled from the spec (§4.5) and claim C4: the reference backward
day-by-day walk. Each due-and-completed day adds 1; the first
due-but-uncompleted day ends the walk with the count final; a non-due day
is skipped without incrementing or stopping; a day strictly before
`habit.createdAt` still contributes its effect but ends the walk
afterwards. Day-stepping is the true calendar predecessor `prevDate`.
Fuel-indexed for totality; `none` means the walk had not finished. -/
def refStreakLoop (store : Store) (habit : Habit) :
    Nat → CDate → Nat → Option Nat
  | 0, _, _ => none
  | fuel + 1, d, streak =>
    let scheduled := isScheduled habit d
    let done := hasCompleted store d habit.id
    if scheduled && !done then some streak
    else
      let streak' := if scheduled && done then streak + 1 else streak
      if dateLt d habit.createdAt then some streak'
      else refStreakLoop store habit fuel (prevDate d) streak'

/-- Body of the `while (true)` loop of `monthRange` from `app.js`: push the
current date, stop when the end-of-month date is reached, step one day
forward, and stop once more than 40 dates have been collected (the
source's hard cap, `if (days.length > 40) break`). The structural fuel is
an embedding artifact only: every iteration grows `days` by one and the
cap stops the loop at 41 collected dates, so the fuel of 41 that
`monthRange` supplies is never exhausted before a break fires. -/
def monthRangeLoop (off : Int) (endD : CDate) :
    Nat → CDate → List CDate → List CDate
  | 0, _, days => days
  | fuel + 1, d, days =>
    if d = endD then days ++ [d]
    else if (days ++ [d]).length > 40 then days ++ [d]
    else monthRangeLoop off endD fuel (addDays off d 1) (days ++ [d])

/-- Model of `monthRange(dateStr)` from `app.js` for a parsed `y-m-…`
input. The start is `new Date("y-m-01T00:00:00")` (a local-midnight
instant) formatted back through `isoDate`; the end is `Date.UTC(y, m, 0)`
(UTC midnight of the last day of month `m`) formatted through `isoDate`. -/
def monthRange (off : Int) (y m : Int) : List CDate :=
  let startD := isoDateMs off (daysFromCivil ⟨y, m, 1⟩ * 86400000 - off * 1000)
  let endD := isoDateMs off ((daysFromCivil ⟨y, m + 1, 1⟩ - 1) * 86400000)
  monthRangeLoop off endD 41 startD []

/-- The everyday habit of claim C4's worked example, created 2024-01-01. -/
def exHabitC4 : Habit :=
  { id := "h1", name := "Daily", color := "", icon := "",
    repeatDays := [0, 1, 2, 3, 4, 5, 6], createdAt := ⟨2024, 1, 1⟩,
    order := 0, archived := false }

/-- Store of claim C4's worked example: completions recorded for
2024-01-05, 01-04 and 01-03 but not 01-02. -/
def exStoreC4 : Store :=
  { habits := [exHabitC4],
    completions := [(⟨2024, 1, 5⟩, ["h1"]), (⟨2024, 1, 4⟩, ["h1"]),
      (⟨2024, 1, 3⟩, ["h1"])] }

/-- Persisted timer state, the `timer-state` record of `TimerComponent` in
`ui-components.js`: `{time, isRunning, startTime}`. A `null` (or absent)
wall-clock anchor is `none`. -/
structure TimerState where
  time : Int
  isRunning : Bool
  startTime : Option Int
deriving DecidableEq, Repr

/-- Model of the restore initializer of `TimerComponent`
(`useState(() => {...})` reading `timer-state`): if
`timerState.isRunning && timerState.startTime` (the numeric anchor is
truthy iff nonzero), return `time + Math.floor((now - startTime) / 1000)`;
otherwise return `timerState.time || 0`, which equals `time` for every
integer value of the field. -/
def restoreTime (st : TimerState) (now : Int) : Int :=
  match st.isRunning, st.startTime with
  | true, some start =>
    if start ≠ 0 then st.time + (now - start) / 1000 else st.time
  | _, _ => st.time

/-- Timer history entry, the record built by `saveTimer` in
`ui-components.js`. -/
structure HistEntry where
  id : String
  duration : Int
  timestamp : String
  date : CDate
  note : String
deriving DecidableEq, Repr

/-- The fresh entry `saveTimer` builds: `duration` is the accumulated time
and the note starts empty (`id` and `timestamp` come from `uid()` and the
clock, kept as parameters). -/
def mkHistEntry (t : Int) (eid ts : String) (d : CDate) : HistEntry :=
  { id := eid, duration := t, timestamp := ts, date := d, note := "" }

/-- Model of `saveTimer` from `ui-components.js` restricted to its history
effect: when the accumulated time is positive, prepend a fresh entry and
keep the first 10 (`[newEntry, ...prev].slice(0, 10)`); otherwise nothing
happens. -/
def saveTimer (t : Int) (eid ts : String) (d : CDate)
    (hist : List HistEntry) : List HistEntry :=
  if t > 0 then (mkHistEntry t eid ts d :: hist).take 10 else hist

/-- A sequence of save-session operations applied oldest first. -/
def runSaves (ops : List (Int × String × String × CDate))
    (hist : List HistEntry) : List HistEntry :=
  ops.foldl (fun h op => saveTimer op.1 op.2.1 op.2.2.1 op.2.2.2 h) hist

/-- Worker for `jsSetOf`: walk the array keeping each element on first
sight and dropping it when it was already seen. -/
def jsSetOfAux (seen : List String) : List String → List String
  | [] => []
  | x :: xs =>
    if seen.contains x then jsSetOfAux seen xs
    else x :: jsSetOfAux (seen ++ [x]) xs

/-- Model of `new Set(arr)` (then spread back to an array): deduplicate
keeping the first occurrence, in insertion order. -/
def jsSetOf (l : List String) : List String :=
  jsSetOfAux [] l

/-- Model of the object update `{ ...prev.completions, [d]: v }`: an
existing binding for `d` keeps its position with the new value, otherwise
the binding is appended. -/
def updateCompletions : List (CDate × List String) → CDate → List String →
    List (CDate × List String)
  | [], d, v => [(d, v)]
  | p :: ps, d, v =>
    if p.1 == d then (d, v) :: ps else p :: updateCompletions ps d v

/-- The list-level effect of one toggle on a day's entry: build a `Set`
from the array, delete the id if present else add it, and spread back
(`if (list.has(h.id)) list.delete(h.id); else list.add(h.id)`). A
`Set.delete` on the deduplicated list is `List.erase`; a `Set.add` of an
absent element appends. -/
def toggleList (l : List String) (hid : String) : List String :=
  let s := jsSetOf l
  if s.contains hid then s.erase hid else s ++ [hid]

/-- Model of `toggle(h, d)` from `ui-components.js`: rewrite the ledger
entry for `d` (absent modelled as `[]`, from `prev.completions[d] || []`)
through `toggleList`. Habit records are untouched. -/
def toggle (store : Store) (d : CDate) (hid : String) : Store :=
  { store with
    completions := updateCompletions store.completions d
      (toggleList ((lookupCompletions store.completions d).getD []) hid) }

/-- Model of `saveHabit(h)` from `ui-components.js`: replace the record
with the same id in place if one exists, otherwise append. There is no
name check in this function. -/
def saveHabit (store : Store) (h : Habit) : Store :=
  let found := store.habits.find? (fun x => x.id == h.id)
  let habits :=
    if found.isSome then store.habits.map (fun x => if x.id == h.id then h else x)
    else store.habits ++ [h]
  { store with habits := habits }

/-- Model of `deleteHabit(id)` from `ui-components.js` (the state update
after the confirmation dialog): drop habit records with the given id and
pass `completions` through unchanged. -/
def deleteHabit (store : Store) (hid : String) : Store :=
  { habits := store.habits.filter (fun h => h.id != hid),
    completions := store.completions }

/-- JS `Array.prototype.splice` start-index normalization: a negative index
counts from the end (clamped at 0), a positive one is clamped at the
length. -/
def spliceStart (len : Nat) (i : Int) : Nat :=
  if i < 0 then ((len : Int) + i).toNat else min i.toNat len

/-- `const [moved] = hs.splice(from, 1)`: the removed element — or
`undefined` (`none`) when the start lands past the end and nothing is
removed — together with the remaining list. -/
def spliceRemoveOne (l : List Habit) (i : Int) : Option Habit × List Habit :=
  let s := spliceStart l.length i
  (l.get? s, l.take s ++ l.drop (s + 1))

/-- `hs.splice(to, 0, moved)`: insert the value `moved` — which may be
`undefined` — at the normalized position. -/
def spliceInsert (l : List (Option Habit)) (i : Int) (x : Option Habit) :
    List (Option Habit) :=
  let s := spliceStart l.length i
  l.take s ++ [x] ++ l.drop s

/-- `({ ...h, order: i })` where `h` may be `undefined`: spreading
`undefined` contributes nothing, leaving an object with only the `order`
field; its other fields read back as `undefined`, modelled as empty
defaults. -/
def spreadWithOrder (o : Option Habit) (i : Nat) : Habit :=
  match o with
  | some h => { h with order := (i : Int) }
  | none =>
      { id := "", name := "", color := "", icon := "", repeatDays := [],
        createdAt := ⟨0, 0, 0⟩, order := (i : Int), archived := false }

/-- Stable sort of the habit collection by `order` (JS `sort` with the
comparator `a.order - b.order` is required to be stable). -/
def sortByOrder (l : List Habit) : List Habit :=
  List.insertionSort (fun a b => a.order ≤ b.order) l

/-- Model of `reorder(from, to)` from `ui-components.js`: sort by `order`,
splice the element out at `from`, splice it back in at `to`, then reassign
`order := position` over the result. -/
def reorder (store : Store) (fromIdx toIdx : Int) : Store :=
  let hs := sortByOrder store.habits
  let rem := spliceRemoveOne hs fromIdx
  let inserted := spliceInsert (rem.2.map some) toIdx rem.1
  let withOrder := inserted.enum.map (fun p => spreadWithOrder p.2 p.1)
  { store with habits := withOrder }

/-- A one-habit store exercising claim C3's out-of-range `reorder`. -/
def exHabitC3 : Habit :=
  { id := "keep", name := "Keep", color := "", icon := "",
    repeatDays := [1], createdAt := ⟨2024, 1, 1⟩, order := 0,
    archived := false }

/-- Store with exactly one habit record. -/
def exStoreC3 : Store :=
  { habits := [exHabitC3], completions := [] }

/-- A draft habit whose name is empty, for claim C5. -/
def exHabitC5 : Habit :=
  { id := "empty-name", name := "", color := "", icon := "",
    repeatDays := [0, 1, 2, 3, 4, 5, 6], createdAt := ⟨2024, 1, 1⟩,
    order := 1, archived := false }

/-- An existing habit record with a different id, for claim C5's witness. -/
def exHabitC5b : Habit :=
  { id := "other", name := "Other", color := "", icon := "",
    repeatDays := [1], createdAt := ⟨2024, 1, 1⟩, order := 0,
    archived := false }

/-- Store holding one unrelated habit, for claim C5. -/
def exStoreC5 : Store :=
  { habits := [exHabitC5b], completions := [] }

/-- Store for claim C9's witness: one habit and a ledger entry referencing
an already-deleted id. -/
def exStoreC9 : Store :=
  { habits := [exHabitC5b],
    completions := [(⟨2024, 1, 2⟩, ["ghost"])] }

/-- A full ten-entry history, for claim C8's witness. -/
def exHistC8 : List HistEntry :=
  List.replicate 10 (mkHistEntry 60 "old" "2024-01-01T00:00:00Z" ⟨2024, 1, 1⟩)

/-! ## Theorems -/

/-- For a zone at or east of UTC (offset in `[0, 86400)` seconds), the
UTC-midnight anchor and the zone read-back land on the same civil day, so
`addDays` is plain epoch-day arithmetic. -/
theorem addDays_of_nonneg_offset (off : Int) (date : CDate) (delta : Int)
    (h1 : 0 ≤ off) (h2 : off < 86400) :
    addDays off date delta = civilFromDays (daysFromCivil date + delta) := by
  unfold addDays isoDateMs
  congr 1
  omega

/-- With a nonnegative sub-day offset, `addDays(d, -1)` is the calendar
predecessor used by the reference walk. -/
theorem addDays_neg_one (off : Int) (d : CDate)
    (h1 : 0 ≤ off) (h2 : off < 86400) :
    addDays off d (-1) = prevDate d := by
  rw [addDays_of_nonneg_offset off d (-1) h1 h2]
  unfold prevDate
  congr 1

/-- The reference walk's count never drops below its accumulator. -/
theorem refStreakLoop_le (store : Store) (habit : Habit) :
    ∀ (fuel : Nat) (d : CDate) (acc r : Nat),
      refStreakLoop store habit fuel d acc = some r → acc ≤ r := by
  intro fuel
  induction fuel with
  | zero => intro d acc r h; simp [refStreakLoop] at h
  | succ n ih =>
    intro d acc r h
    simp only [refStreakLoop] at h
    split_ifs at h
    all_goals
      first
        | (have h' := Option.some.inj h; omega)
        | (have h' := ih _ _ _ h; omega)

/-- If the day-stepping is stuck on a fixed point that does not end the
walk, the reference walk never finishes, whatever the fuel. -/
theorem refStreakLoop_stuck (store : Store) (habit : Habit) (d : CDate)
    (hfix : prevDate d = d)
    (hnb : ¬(isScheduled habit d && !hasCompleted store d habit.id) = true)
    (hnc : ¬dateLt d habit.createdAt = true) :
    ∀ (fuel acc : Nat), refStreakLoop store habit fuel d acc = none := by
  intro fuel
  induction fuel with
  | zero => intro acc; simp [refStreakLoop]
  | succ n ih =>
    intro acc
    simp only [refStreakLoop]
    rw [if_neg hnb, if_neg hnc, hfix]
    exact ih _

/-- Core refinement: whenever the reference walk finishes within some fuel
and its result stays within the source's 3650 safety bound, the source loop
finishes with the same result (for a zone at or east of UTC). -/
theorem calcStreakLoop_eq_ref (off : Int) (store : Store) (habit : Habit)
    (h1 : 0 ≤ off) (h2 : off < 86400) :
    ∀ (fuel : Nat) (d : CDate) (acc r : Nat),
      refStreakLoop store habit fuel d acc = some r → r ≤ 3650 →
      calcStreakLoop off store habit fuel d acc = some r := by
  intro fuel
  induction fuel with
  | zero => intro d acc r h _; simp [refStreakLoop] at h
  | succ n ih =>
    intro d acc r h hr
    simp only [refStreakLoop] at h
    simp only [calcStreakLoop]
    by_cases hb : (isScheduled habit d && !hasCompleted store d habit.id) = true
    · rw [if_pos hb] at h ⊢; exact h
    · rw [if_neg hb] at h ⊢
      by_cases hc : dateLt d habit.createdAt = true
      · rw [if_pos hc] at h ⊢; exact h
      · rw [if_neg hc] at h ⊢
        rw [addDays_neg_one off d h1 h2]
        by_cases hfix : prevDate d = d
        · rw [hfix] at h
          rw [refStreakLoop_stuck store habit d hfix hb hc n _] at h
          exact absurd h (by simp)
        · rw [if_neg hfix]
          have hle := refStreakLoop_le store habit n (prevDate d) _ r h
          rw [if_neg (by omega)]
          exact ih (prevDate d) _ r h hr

/-- C4: for every store, habit and start date, `calcStreak` agrees with the
reference backward day-by-day walk of the specification — each
due-and-completed day adds 1, the first due-but-uncompleted day ends the
walk with the count final, non-due days are transparent, and a day strictly
before `habit.createdAt` contributes its effect and then ends the walk.
Hypotheses: the fixed zone's offset is a nonnegative sub-day amount (for a
zone behind UTC the `addDays` defect recorded in C6 breaks the
day-stepping), and the reference walk finishes with a result within the
source's documented 3650 safety bound. -/
theorem c4_calcStreak_matches_reference_walk
    (off : Int) (store : Store) (habit : Habit) (fromDate : CDate)
    (fuel r : Nat)
    (h1 : 0 ≤ off) (h2 : off < 86400)
    (h3 : refStreakLoop store habit fuel fromDate 0 = some r)
    (h4 : r ≤ 3650) :
    calcStreak off store habit fromDate fuel = some r :=
  calcStreakLoop_eq_ref off store habit h1 h2 fuel fromDate 0 r h3 h4

/-- Witness for C4 at the claim's worked example: a habit due every day,
created 2024-01-01, completed on 01-05, 01-04, 01-03 but not 01-02, has
streak 3 as of 2024-01-05 (zone offset +1 h, the Europe/Zurich fallback). -/
theorem c4_witness :
    0 ≤ (3600 : Int) ∧ (3600 : Int) < 86400 ∧
    refStreakLoop exStoreC4 exHabitC4 10 ⟨2024, 1, 5⟩ 0 = some 3 ∧
    (3 : Nat) ≤ 3650 ∧
    calcStreak 3600 exStoreC4 exHabitC4 ⟨2024, 1, 5⟩ 10 = some 3 :=
  ⟨by decide, by decide, by decide, by decide,
    c4_calcStreak_matches_reference_walk 3600 exStoreC4 exHabitC4
      ⟨2024, 1, 5⟩ 10 3 (by decide) (by decide) (by decide) (by decide)⟩

/-- C6: the claim "addDays(d, delta) returns the calendar date exactly delta
whole days after d, independent of the fixed reference timezone's offset; in
particular addDays(d, 0) = d" is falsified by the code at a zone behind UTC:
with offset -5 hours (-18000 s, e.g. America/New_York standard time),
`addDays("2024-01-10", 0)` evaluates to `2024-01-09`, one day earlier —
the UTC-midnight anchor formatted through a zone behind UTC lands on the
previous civil day. -/
theorem c6_addDays_shifts_for_negative_offset :
    addDays (-18000) ⟨2024, 1, 10⟩ 0 = ⟨2024, 1, 9⟩ := by decide

/-- Any run of the month loop beginning with at most 40 collected days
returns at most 41 days, whatever the fuel: each iteration appends exactly
one date and the loop stops as soon as more than 40 have been collected. -/
theorem monthRangeLoop_length (off : Int) (endD : CDate) :
    ∀ (fuel : Nat) (d : CDate) (days : List CDate), days.length ≤ 40 →
      (monthRangeLoop off endD fuel d days).length ≤ 41 := by
  intro fuel
  induction fuel with
  | zero => intro d days h; simp only [monthRangeLoop]; omega
  | succ n ih =>
    intro d days h
    simp only [monthRangeLoop]
    split
    · simp only [List.length_append, List.length_singleton]; omega
    · split
      · next hlen =>
          simp only [List.length_append, List.length_singleton] at hlen ⊢
          omega
      · next hlen =>
          simp only [List.length_append, List.length_singleton] at hlen
          exact ih (addDays off d 1) (days ++ [d])
            (by simp only [List.length_append, List.length_singleton]; omega)

/-- C10: `monthRange` is total and returns at most 41 entries for every
input — the loop's hard cap (break once more than 40 days are collected)
bounds it even when the end-of-month date is never reached, independently
of whether `addDays` advances the date. -/
theorem c10_monthRange_at_most_41 (off y m : Int) :
    (monthRange off y m).length ≤ 41 := by
  unfold monthRange
  exact monthRangeLoop_length off _ 41 _ [] (by simp)

/-- C1: on restore, the displayed accumulated seconds equal the persisted
value plus the whole-second elapsed time since the wall-clock anchor
exactly when the persisted state was running with an anchor present (a
real `Date.now()` anchor is positive); otherwise the persisted value is
used unmodified. -/
theorem c1_timer_restore (st : TimerState) (now : Int) :
    (∀ start : Int, st.isRunning = true → st.startTime = some start →
      0 < start → restoreTime st now = st.time + (now - start) / 1000) ∧
    (st.isRunning = false ∨ st.startTime = none →
      restoreTime st now = st.time) := by
  constructor
  · intro start hrun hanchor hpos
    simp only [restoreTime, hrun, hanchor]
    rw [if_pos (by omega : start ≠ 0)]
  · intro hcase
    rcases hcase with hr | hs
    · cases hst : st.startTime <;> simp [restoreTime, hr, hst]
    · cases hr : st.isRunning <;> simp [restoreTime, hs, hr]

/-- Witness for C1 at the claim's example: persisted
`{accumulatedSeconds: 100, isRunning: true, runStartWallClock: T}`
restored at `T + 30 s` displays 130. -/
theorem c1_witness :
    restoreTime ⟨100, true, some 5000000⟩ 5030000 = 130 := by
  have h := (c1_timer_restore ⟨100, true, some 5000000⟩ 5030000).1
    5000000 rfl rfl (by decide)
  rw [h]; decide

/-- C2 (code bug): the restore path does not clamp a negative elapsed
delta. A running state with `accumulatedSeconds = 100` and anchor at
`T = 31000 ms`, restored at `T - 30 s`, displays 70 — the counter is
decremented, where the claim requires it to stay 100. -/
theorem c2_clock_backward_decrements :
    restoreTime ⟨100, true, some 31000⟩ 1000 = 70 ∧
    restoreTime ⟨100, true, some 31000⟩ 1000 < 100 := by decide

/-- C3 (code bug): `reorder` does not clamp or reject an out-of-range
`from` index. On a store with a single habit, `reorder(5, 0)` removes
nothing (`splice` past the end yields `undefined`), inserts the
`undefined` back, and the final spread fabricates a record: the store ends
up with two habit records, the first one an empty fabricated record. -/
theorem c3_reorder_out_of_range_corrupts :
    (reorder exStoreC3 5 0).habits.length = 2 ∧
    (reorder exStoreC3 5 0).habits.map (fun h => h.id) = ["", "keep"] := by
  decide

/-- Counterexample to C5 as stated: `saveHabit` does not reject an
empty-name habit — saving a record whose `name` is `""` changes the habit
collection (the record is appended). -/
theorem c5_saveHabit_accepts_empty_name :
    exHabitC5.name = "" ∧
    (saveHabit exStoreC5 exHabitC5).habits ≠ exStoreC5.habits := by decide

/-- C5 (amended): `saveHabit` performs no name validation; for every store
and habit — empty or whitespace name included — it leaves the ledger
unchanged, puts the given record in the collection (replacing the record
with the same id in place when one exists, else appending), and keeps
every record with a different id. -/
theorem c5_saveHabit_no_validation (store : Store) (h : Habit) :
    (saveHabit store h).completions = store.completions ∧
    h ∈ (saveHabit store h).habits ∧
    (∀ x ∈ store.habits, x.id ≠ h.id → x ∈ (saveHabit store h).habits) ∧
    ((∀ x ∈ store.habits, x.id ≠ h.id) →
      (saveHabit store h).habits = store.habits ++ [h]) := by
  refine ⟨rfl, ?_, ?_, ?_⟩
  · show h ∈ (if (store.habits.find? fun x => x.id == h.id).isSome then
        store.habits.map (fun x => if x.id == h.id then h else x)
      else store.habits ++ [h])
    split
    · next hc =>
        obtain ⟨y, hy⟩ := Option.isSome_iff_exists.mp hc
        have hymem := List.mem_of_find?_eq_some hy
        have hyp := List.find?_some hy
        exact List.mem_map.mpr ⟨y, hymem, by rw [if_pos hyp]⟩
    · exact List.mem_append_right _ (List.mem_singleton.mpr rfl)
  · intro x hx hne
    show x ∈ (if (store.habits.find? fun a => a.id == h.id).isSome then
        store.habits.map (fun a => if a.id == h.id then h else a)
      else store.habits ++ [h])
    split
    · exact List.mem_map.mpr ⟨x, hx, by rw [if_neg (by simpa using hne)]⟩
    · exact List.mem_append_left _ hx
  · intro hall
    have hnone : store.habits.find? (fun x => x.id == h.id) = none :=
      List.find?_eq_none.mpr (fun x hx => by simpa using hall x hx)
    show (if (store.habits.find? fun x => x.id == h.id).isSome then
        store.habits.map (fun x => if x.id == h.id then h else x)
      else store.habits ++ [h]) = store.habits ++ [h]
    rw [hnone]
    rfl

/-- Witness for C5 (amended) on a concrete store: saving the empty-name
draft keeps the unrelated record and adds the draft itself. -/
theorem c5_witness :
    exHabitC5b ∈ exStoreC5.habits ∧ exHabitC5b.id ≠ exHabitC5.id ∧
    exHabitC5b ∈ (saveHabit exStoreC5 exHabitC5).habits ∧
    exHabitC5 ∈ (saveHabit exStoreC5 exHabitC5).habits :=
  ⟨by decide, by decide,
    (c5_saveHabit_no_validation exStoreC5 exHabitC5).2.2.1 exHabitC5b
      (by decide) (by decide),
    (c5_saveHabit_no_validation exStoreC5 exHabitC5).2.1⟩

/-- One save keeps the history within ten entries. -/
theorem saveTimer_length (t : Int) (eid ts : String) (d : CDate)
    (hist : List HistEntry) (h : hist.length ≤ 10) :
    (saveTimer t eid ts d hist).length ≤ 10 := by
  unfold saveTimer
  split
  · simp [List.length_take]
  · exact h

/-- Any sequence of saves keeps the history within ten entries. -/
theorem runSaves_length (ops : List (Int × String × String × CDate)) :
    ∀ hist : List HistEntry, hist.length ≤ 10 →
      (runSaves ops hist).length ≤ 10 := by
  induction ops with
  | nil => intro hist h; simpa [runSaves] using h
  | cons op ops ih =>
    intro hist h
    simp only [runSaves, List.foldl_cons] at ih ⊢
    exact ih _ (saveTimer_length _ _ _ _ _ h)

/-- C8: starting from a history within the cap, no sequence of
save-session operations ever takes it beyond 10 entries; a save with
positive accumulated time prepends exactly one fresh entry and truncates
past position 10, and against a full ten-entry history it evicts exactly
the oldest (last) entry. -/
theorem c8_history_cap (hist : List HistEntry)
    (ops : List (Int × String × String × CDate))
    (t : Int) (eid ts : String) (d : CDate)
    (hlen : hist.length ≤ 10) (ht : 0 < t) :
    (runSaves ops hist).length ≤ 10 ∧
    saveTimer t eid ts d hist = (mkHistEntry t eid ts d :: hist).take 10 ∧
    (hist.length = 10 →
      saveTimer t eid ts d hist = mkHistEntry t eid ts d :: hist.dropLast) := by
  refine ⟨runSaves_length ops hist hlen, ?_, ?_⟩
  · unfold saveTimer
    rw [if_pos (by omega)]
  · intro hfull
    unfold saveTimer
    rw [if_pos (by omega), List.take_succ_cons,
      List.dropLast_eq_take, hfull]

/-- Witness for C8: a save of 60 s against a full ten-entry history keeps
the length at ten and evicts exactly the oldest entry. -/
theorem c8_witness :
    exHistC8.length ≤ 10 ∧ (0 : Int) < 60 ∧
    (runSaves [(60, "n", "ts", ⟨2024, 1, 2⟩)] exHistC8).length ≤ 10 ∧
    saveTimer 60 "n" "ts" ⟨2024, 1, 2⟩ exHistC8 =
      mkHistEntry 60 "n" "ts" ⟨2024, 1, 2⟩ :: exHistC8.dropLast := by
  have h := c8_history_cap exHistC8 [(60, "n", "ts", ⟨2024, 1, 2⟩)] 60 "n"
    "ts" ⟨2024, 1, 2⟩ (by decide) (by decide)
  exact ⟨by decide, by decide, h.1, h.2.2 (by decide)⟩

/-- C9: `deleteHabit` removes exactly the habit records carrying the given
id (a no-op on the collection when no record has that id) and leaves the
completion ledger — orphaned references included — untouched. -/
theorem c9_deleteHabit_frame (store : Store) (hid : String) :
    (deleteHabit store hid).completions = store.completions ∧
    (∀ h : Habit,
      h ∈ (deleteHabit store hid).habits ↔ h ∈ store.habits ∧ h.id ≠ hid) ∧
    ((∀ h ∈ store.habits, h.id ≠ hid) →
      (deleteHabit store hid).habits = store.habits) := by
  refine ⟨rfl, ?_, ?_⟩
  · intro h
    show h ∈ store.habits.filter (fun x => x.id != hid) ↔ _
    simp [List.mem_filter]
  · intro hall
    show store.habits.filter (fun x => x.id != hid) = store.habits
    exact List.filter_eq_self.mpr (fun a ha => by simpa using hall a ha)

/-- Witness for C9: deleting an id that no habit carries leaves the
collection unchanged, and the ledger (holding an orphaned reference)
passes through untouched. -/
theorem c9_witness :
    (∀ h ∈ exStoreC9.habits, h.id ≠ "gone") ∧
    (deleteHabit exStoreC9 "gone").habits = exStoreC9.habits ∧
    (deleteHabit exStoreC9 "gone").completions = exStoreC9.completions := by
  have h := c9_deleteHabit_frame exStoreC9 "gone"
  exact ⟨by decide, h.2.2 (by decide), h.1⟩

/-- Membership in the dedup worker: kept iff present in the remainder and
not already seen. -/
theorem mem_jsSetOfAux (x : String) :
    ∀ (l seen : List String), x ∈ jsSetOfAux seen l ↔ x ∈ l ∧ x ∉ seen := by
  intro l
  induction l with
  | nil => intro seen; simp [jsSetOfAux]
  | cons a as ih =>
    intro seen
    simp only [jsSetOfAux]
    split
    · next hc =>
        have ha : a ∈ seen := by simpa using hc
        rw [ih]
        constructor
        · rintro ⟨h1, h2⟩; exact ⟨List.mem_cons_of_mem _ h1, h2⟩
        · rintro ⟨h1, h2⟩
          rcases List.mem_cons.mp h1 with rfl | h1
          · exact absurd ha h2
          · exact ⟨h1, h2⟩
    · next hc =>
        have ha : a ∉ seen := by simpa using hc
        simp only [List.mem_cons]
        constructor
        · rintro (rfl | h)
          · exact ⟨Or.inl rfl, ha⟩
          · rw [ih] at h
            exact ⟨Or.inr h.1, fun hx => h.2 (List.mem_append_left _ hx)⟩
        · rintro ⟨(rfl | h1), h2⟩
          · exact Or.inl rfl
          · by_cases hxa : x = a
            · exact Or.inl hxa
            · refine Or.inr ?_
              rw [ih]
              refine ⟨h1, fun hx => ?_⟩
              rcases List.mem_append.mp hx with hx | hx
              · exact h2 hx
              · exact hxa (List.mem_singleton.mp hx)

/-- `new Set` preserves membership. -/
theorem mem_jsSetOf (x : String) (l : List String) :
    x ∈ jsSetOf l ↔ x ∈ l := by
  unfold jsSetOf
  rw [mem_jsSetOfAux]
  simp

/-- The dedup worker never emits a duplicate. -/
theorem nodup_jsSetOfAux :
    ∀ (l seen : List String), (jsSetOfAux seen l).Nodup := by
  intro l
  induction l with
  | nil => intro seen; simp [jsSetOfAux]
  | cons a as ih =>
    intro seen
    simp only [jsSetOfAux]
    split
    · exact ih seen
    · refine List.nodup_cons.mpr ⟨fun hmem => ?_, ih _⟩
      rw [mem_jsSetOfAux] at hmem
      exact hmem.2 (List.mem_append_right _ (List.mem_singleton.mpr rfl))

/-- `new Set` of an array is duplicate-free. -/
theorem nodup_jsSetOf (l : List String) : (jsSetOf l).Nodup :=
  nodup_jsSetOfAux l []

/-- The dedup worker fixes a duplicate-free list disjoint from `seen`. -/
theorem jsSetOfAux_eq_self :
    ∀ (l seen : List String), l.Nodup → (∀ y ∈ l, y ∉ seen) →
      jsSetOfAux seen l = l := by
  intro l
  induction l with
  | nil => intro seen _ _; rfl
  | cons a as ih =>
    intro seen hnd hall
    simp only [jsSetOfAux]
    rw [if_neg (by simpa using hall a (List.mem_cons_self a as))]
    congr 1
    refine ih _ (List.nodup_cons.mp hnd).2 (fun y hy hmem => ?_)
    rcases List.mem_append.mp hmem with hx | hx
    · exact hall y (List.mem_cons_of_mem _ hy) hx
    · exact (List.nodup_cons.mp hnd).1 ((List.mem_singleton.mp hx) ▸ hy)

/-- `new Set` fixes a duplicate-free list. -/
theorem jsSetOf_eq_self (l : List String) (h : l.Nodup) : jsSetOf l = l :=
  jsSetOfAux_eq_self l [] h (by simp)

/-- Looking up the updated key returns the new value. -/
theorem lookupCompletions_update_self
    (c : List (CDate × List String)) (d : CDate) (v : List String) :
    lookupCompletions (updateCompletions c d v) d = some v := by
  induction c with
  | nil => simp [updateCompletions, lookupCompletions]
  | cons p ps ih =>
    simp only [updateCompletions]
    split
    · simp [lookupCompletions]
    · next hp =>
        simp only [lookupCompletions]
        rw [if_neg hp]
        exact ih

/-- Updating one key leaves every other key's lookup unchanged. -/
theorem lookupCompletions_update_ne (d d' : CDate) (v : List String)
    (hne : d' ≠ d) :
    ∀ c : List (CDate × List String),
      lookupCompletions (updateCompletions c d v) d' =
        lookupCompletions c d' := by
  have hdd : ¬((d == d') = true) := by simpa using fun h => hne h.symm
  intro c
  induction c with
  | nil =>
    simp only [updateCompletions, lookupCompletions]
    rw [if_neg hdd]
  | cons p ps ih =>
    simp only [updateCompletions]
    split
    · next hp =>
        have hpd : p.1 = d := by simpa using hp
        simp only [lookupCompletions]
        rw [if_neg hdd, if_neg (by simpa [hpd] using hdd)]
    · next hp =>
        simp only [lookupCompletions]
        split
        · rfl
        · exact ih

/-- Toggling the same id twice on a day's array preserves membership. -/
theorem toggleList_twice_mem (l : List String) (hid x : String) :
    (x ∈ toggleList (toggleList l hid) hid ↔ x ∈ l) := by
  have hnd : (jsSetOf l).Nodup := nodup_jsSetOf l
  by_cases hc : hid ∈ jsSetOf l
  · -- first toggle erases
    have h1 : toggleList l hid = (jsSetOf l).erase hid := by
      unfold toggleList
      rw [if_pos (by simpa using hc)]
    have hnd1 : ((jsSetOf l).erase hid).Nodup := hnd.erase hid
    have hno : hid ∉ (jsSetOf l).erase hid :=
      fun hmem => (hnd.mem_erase_iff.mp hmem).1 rfl
    have h2 : toggleList (toggleList l hid) hid =
        (jsSetOf l).erase hid ++ [hid] := by
      rw [h1]
      unfold toggleList
      rw [jsSetOf_eq_self _ hnd1, if_neg (by simpa using hno)]
    rw [h2, ← mem_jsSetOf x l]
    simp only [List.mem_append, List.mem_singleton, hnd.mem_erase_iff]
    by_cases hx : x = hid
    · subst hx; simp [hc]
    · simp [hx]
  · -- first toggle appends
    have h1 : toggleList l hid = jsSetOf l ++ [hid] := by
      unfold toggleList
      rw [if_neg (by simpa using hc)]
    have hnd1 : (jsSetOf l ++ [hid]).Nodup := by
      rw [List.nodup_append]
      exact ⟨hnd, List.nodup_singleton hid,
        by simpa [List.disjoint_singleton] using hc⟩
    have h2 : toggleList (toggleList l hid) hid = jsSetOf l := by
      rw [h1]
      unfold toggleList
      rw [jsSetOf_eq_self _ hnd1,
        if_pos (by simp : ((jsSetOf l ++ [hid]).contains hid) = true),
        List.erase_append_right _ hc]
      simp
    rw [h2, mem_jsSetOf]

/-- C7: `toggle` is its own inverse on the ledger up to the specified
equivalence — ledger entries are sets (membership only) and an entry
holding the empty set is the same as an absent entry (lookups default to
`[]`) — and neither application modifies any habit record. -/
theorem c7_toggle_involution (store : Store) (d : CDate) (hid : String) :
    (∀ (dd : CDate) (x : String),
      (x ∈ (lookupCompletions (toggle (toggle store d hid) d hid).completions
          dd).getD [] ↔
        x ∈ (lookupCompletions store.completions dd).getD [])) ∧
    (toggle store d hid).habits = store.habits ∧
    (toggle (toggle store d hid) d hid).habits = store.habits := by
  refine ⟨?_, rfl, rfl⟩
  intro dd x
  show x ∈ (lookupCompletions
      (updateCompletions (toggle store d hid).completions d
        (toggleList ((lookupCompletions (toggle store d hid).completions
          d).getD []) hid)) dd).getD [] ↔ _
  by_cases hdd : dd = d
  · subst hdd
    have hfst : lookupCompletions (toggle store dd hid).completions dd =
        some (toggleList ((lookupCompletions store.completions dd).getD [])
          hid) :=
      lookupCompletions_update_self store.completions dd _
    rw [lookupCompletions_update_self, hfst]
    simp only [Option.getD_some]
    rw [toggleList_twice_mem]
  · rw [lookupCompletions_update_ne d dd _ hdd]
    show x ∈ (lookupCompletions
        (updateCompletions store.completions d _) dd).getD [] ↔ _
    rw [lookupCompletions_update_ne d dd _ hdd]

end Tracker
